import Mathlib

/-!
Verification of the miniKanren engine in `src/mini/minikanren.ts`.

Terms are the JavaScript values the engine manipulates: logic variables
(`Var` objects, identified here by their `id` string), numbers, bigints,
strings, booleans, the `undefined` sentinel, and arrays of terms.  A state
(substitution) is a record from variable ids to terms; we model it as an
association list whose `extend` conses a binding that shadows older ones,
matching `Object.assign`'s overwrite as observed through lookup.

`walk` and `unify` can diverge in JavaScript on cyclic inputs (the `while`
loop of `walk`, the mutual recursion of `unify` on sequence elements), so
both are modelled with an explicit fuel parameter: `none` means the fuel ran
out, `some r` is the value the JavaScript function returns, and the results
are monotone in fuel.
-/

namespace Kanren

/-- A term of the engine: `Var(id)`, an atomic JavaScript value, or an array
of terms (src/mini/minikanren.ts:27-39 and the untyped values it unifies). -/
inductive Term : Type where
  | var (id : String)
  | num (n : Int)
  | big (n : Int)
  | str (s : String)
  | bool (b : Bool)
  | undefined
  | seq (ts : List Term)
  deriving Repr

mutual

/-- Structural equality of terms.  JavaScript's `===` on walked values is
observationally equivalent to structural equality inside `unify`: atoms and
canonical `Var` objects compare by value, and element-wise unification of
structurally equal arrays returns the state unchanged, exactly as the `===`
short-circuit does. -/
def Term.beq : Term → Term → Bool
  | .var a, .var b => a == b
  | .num a, .num b => a == b
  | .big a, .big b => a == b
  | .str a, .str b => a == b
  | .bool a, .bool b => a == b
  | .undefined, .undefined => true
  | .seq as, .seq bs => Term.beqList as bs
  | _, _ => false

/-- Element-wise `Term.beq` on arrays. -/
def Term.beqList : List Term → List Term → Bool
  | [], [] => true
  | a :: as, b :: bs => Term.beq a b && Term.beqList as bs
  | _, _ => false

end

theorem Term.beq_iff_eq_aux (n : Nat) :
    (∀ a b : Term, sizeOf a ≤ n → (Term.beq a b = true ↔ a = b)) ∧
      (∀ as bs : List Term, sizeOf as ≤ n → (Term.beqList as bs = true ↔ as = bs)) := by
  induction n with
  | zero =>
    constructor
    · intro a b h
      cases a <;> simp_all
    · intro as bs h
      cases as <;> simp_all
  | succ n ih =>
    constructor
    · intro a b h
      cases a <;> cases b <;> simp_all [Term.beq]
      case seq.seq as bs =>
        exact ih.2 as bs (by omega)
    · intro as bs h
      cases as with
      | nil => cases bs <;> simp [Term.beqList]
      | cons a as =>
        cases bs with
        | nil => simp [Term.beqList]
        | cons b bs =>
          simp only [Term.beqList, Bool.and_eq_true, List.cons.injEq]
          have ha : sizeOf a ≤ n := by simp at h; omega
          have has : sizeOf as ≤ n := by simp at h; omega
          rw [ih.1 a b ha, ih.2 as bs has]

theorem Term.beq_iff_eq (a b : Term) : Term.beq a b = true ↔ a = b :=
  (Term.beq_iff_eq_aux (sizeOf a)).1 a b (Nat.le_refl _)

instance Term.instDecidableEq : DecidableEq Term :=
  fun a b => decidable_of_iff _ (Term.beq_iff_eq a b)

/-- A `State` is a record of bindings from identifiers to terms
(src/mini/minikanren.ts:4). -/
def State : Type := List (String × Term)

instance : DecidableEq State := by
  unfold State
  infer_instance

/-- Property lookup `s[x]`: `none` models JavaScript's `undefined` for an
absent key.  The newest binding for an id shadows older ones, which is how
`extend` realises `Object.assign`'s overwrite. -/
def lookup : State → String → Option Term
  | [], _ => none
  | (y, t) :: s, x => if x = y then some t else lookup s x

/-- `extend(state, {id: t})` returns a fresh record with the binding added,
shadowing any existing binding for `id` (src/mini/minikanren.ts:64-69). -/
def extend (s : State) (x : String) (t : Term) : State :=
  (x, t) :: s

/-- The empty state (src/mini/minikanren.ts:62). -/
def emptyState : State := []

/-- Fuelled model of `walk(v, s)` (src/mini/minikanren.ts:42-49): chase the
binding chain while the value is a `Var`; a self-binding stops at the
variable, an absent binding yields `undefined`.  `none` = out of fuel (the
JavaScript loop diverges on a cyclic variable chain). -/
def walkF : Nat → Term → State → Option Term
  | 0, _, _ => none
  | f + 1, .var x, s =>
    match lookup s x with
    | none => some .undefined
    | some w => if w = .var x then some (.var x) else walkF f w s
  | _ + 1, .num n, _ => some (.num n)
  | _ + 1, .big n, _ => some (.big n)
  | _ + 1, .str a, _ => some (.str a)
  | _ + 1, .bool b, _ => some (.bool b)
  | _ + 1, .undefined, _ => some .undefined
  | _ + 1, .seq ts, _ => some (.seq ts)

/-- `walk` returns `r` on term `t` in state `s` for some sufficient fuel. -/
def WalkRes (s : State) (t r : Term) : Prop :=
  ∃ f, walkF f t s = some r

mutual

/-- Fuelled model of `unify(u, v, s)` (src/mini/minikanren.ts:84-109): walk
both terms, return the state on `===`-equal results, bind a walked variable,
or fold over the elements of two arrays of equal length.  Outer `none` = out
of fuel (the JavaScript recursion through bound arrays can diverge on cyclic
states); `some none` = FAIL (the function returns `undefined`);
`some (some t)` = success with state `t`. -/
def unifyF : Nat → Term → Term → State → Option (Option State)
  | 0, _, _, _ => none
  | f + 1, u, v, s =>
    match walkF (f + 1) u s, walkF (f + 1) v s with
    | some u', some v' =>
      if u' = v' then some (some s)
      else
        match u', v' with
        | .var x, _ => some (some (extend s x v'))
        | _, .var y => some (some (extend s y u'))
        | .seq us, .seq vs =>
          if us.length = vs.length then unifyListF f us vs s else some none
        | _, _ => some none
    | _, _ => none

/-- The element-wise fold of `unify` over two arrays
(src/mini/minikanren.ts:98-106), threading the state and short-circuiting on
failure; called only on arrays of equal length.  The fold consumes fuel per
element so that the mutual recursion is structural on the fuel. -/
def unifyListF : Nat → List Term → List Term → State → Option (Option State)
  | 0, _, _, _ => none
  | _ + 1, [], [], s => some (some s)
  | f + 1, a :: as, b :: bs, s =>
    match unifyF f a b s with
    | some (some t) => unifyListF f as bs t
    | some none => some none
    | none => none
  | _ + 1, _, _, _ => some none

end

/-- The states reachable from `s` by the rebindings `unify` performs: each
step replaces a self-binding `x ↦ Var(x)` (the representation of an unbound
variable) by a walk result different from `Var(x)`.  `unify` only extends a
state this way, because the variable it binds is itself a walk result and
hence self-bound, and the value bound is the other walk result. -/
inductive Ext : State → State → Prop where
  | refl (s : State) : Ext s s
  | step {s t : State} {x : String} {w : Term} :
      Ext s t → lookup t x = some (.var x) → WalkRes t w w → w ≠ .var x →
      Ext s (extend t x w)

/-- Walked structural equality in a state: the two terms walk to the same
value, or to arrays of equal length whose corresponding elements are again
walked-equal.  This is equality "up to structural equality" after resolution
in the state: same variable, equal atoms, or element-wise equality of
sequences. -/
inductive WalkedEq : State → Term → Term → Prop where
  | same {s : State} {u v r : Term} :
      WalkRes s u r → WalkRes s v r → WalkedEq s u v
  | seqs {s : State} {u v : Term} {us vs : List Term} :
      WalkRes s u (.seq us) → WalkRes s v (.seq vs) →
      us.length = vs.length →
      (∀ (i : Nat) (h : i < us.length) (h' : i < vs.length),
        WalkedEq s (us.get ⟨i, h⟩) (vs.get ⟨i, h'⟩)) →
      WalkedEq s u v

mutual

/-- Fuelled model of `occursCheck(x, v, s)`
(src/mini/minikanren.ts:247-256): walk `v`; a walked variable occurs when it
is `===` the unwalked first argument `x` (so a non-variable `x` never matches
it), an array occurs when some element occurs.  `none` = out of fuel (the
JavaScript recursion diverges on cyclic states). -/
def occursF : Nat → Term → Term → State → Option Bool
  | 0, _, _, _ => none
  | f + 1, x, v, s =>
    match walkF (f + 1) v s with
    | none => none
    | some (.var y) => some (decide (x = .var y))
    | some (.seq ws) => occursListF f x ws s
    | some _ => some false

/-- `Array.prototype.some` over the elements: left-to-right, short-circuit
on the first occurrence. -/
def occursListF : Nat → Term → List Term → State → Option Bool
  | 0, _, _, _ => none
  | _ + 1, _, [], _ => some false
  | f + 1, x, w :: ws, s =>
    match occursF f x w s with
    | some true => some true
    | some false => occursListF f x ws s
    | none => none

end

/-- Fuelled model of `unifyCheck(u, v, s)` (src/mini/minikanren.ts:259-267):
`if (u === v || !occursCheck(u, v, s) && !occursCheck(v, u, s)) return
unify(u, v, s)`, otherwise the function returns `undefined` (FAIL).  The
occurs check runs on the two unwalked whole arguments before unification
and only there; `unify` itself binds sequence elements unchecked. -/
def unifyCheckF (f : Nat) (u v : Term) (s : State) : Option (Option State) :=
  if u = v then unifyF f u v s
  else
    match occursF f u v s with
    | none => none
    | some true => some none
    | some false =>
      match occursF f v u s with
      | none => none
      | some true => some none
      | some false => unifyF f u v s

mutual

/-- `x` occurs syntactically in a term, through sequence elements. -/
def Term.mentionsVar (x : String) : Term → Bool
  | .var y => decide (x = y)
  | .seq ts => Term.mentionsVarList x ts
  | _ => false

/-- `Term.mentionsVar` over the elements of an array. -/
def Term.mentionsVarList (x : String) : List Term → Bool
  | [] => false
  | t :: ts => Term.mentionsVar x t || Term.mentionsVarList x ts

end

/-- The binding of `x` in `s` is directly cyclic: `x` is bound (to a term
other than the self-binding `Var(x)` that represents an unbound variable)
and the bound term mentions `x`. -/
def cyclicBinding (s : State) (x : String) : Bool :=
  match lookup s x with
  | some t => if t = .var x then false else Term.mentionsVar x t
  | none => false

/-- `Var.isVar(x)` (src/mini/minikanren.ts:36-38). -/
def Term.isVar : Term → Bool
  | .var _ => true
  | _ => false

/-- `typeof x === "number" || typeof x === "bigint"`, the numeric guard of
the arithmetic predicates (src/mini/minikanren.ts:685-705). -/
def Term.isNum : Term → Bool
  | .num _ => true
  | .big _ => true
  | _ => false

/-- The integer a numeric term carries; `BigInt(a)` maps both JavaScript
numbers and bigints onto the same arbitrary-precision value. -/
def Term.intVal : Term → Int
  | .num n => n
  | .big n => n
  | _ => 0

/-- A goal with a finite stream, as the function from a state to the list of
states its generator yields there (`Goal`, src/mini/minikanren.ts:10,
restricted to goals whose streams are finite). -/
def FinGoal : Type := State → List State

/-- `succeed` (src/mini/minikanren.ts:20-22). -/
def succeedF : FinGoal := fun s => [s]

/-- `fail` (src/mini/minikanren.ts:25). -/
def failF : FinGoal := fun _ => []

/-- `conj(...goals)` on finite streams (src/mini/minikanren.ts:115-134):
each state of the first goal is fed to the conjunction of the rest;
`conj()` is `succeed`.  The source's construction-time elimination of
`succeed` and `fail` arguments does not change the yielded stream. -/
def conjL : List FinGoal → FinGoal
  | [], s => [s]
  | g :: gs, s => (g s).flatMap (conjL gs)

/-- `disj(...goals)` on finite streams (src/mini/minikanren.ts:140-152):
yield every state of each goal in order. -/
def disjL : List FinGoal → FinGoal
  | gs, s => gs.flatMap (fun g => g s)

/-- A `conda` clause: a bare goal, or an array of goals `[head, tail…]`
(`conda` reads `goal[0]` and `goal.slice(1)`, so array clauses are modelled
with their head explicit). -/
inductive Clause : Type where
  | bare (g : FinGoal)
  | arr (head : FinGoal) (tail : List FinGoal)

/-- The stream `conda`'s generator yields on a state
(src/mini/minikanren.ts:366-387): clauses are tried in order; an array
clause pulls its head once and, if the head yielded, runs `conj` of the
tail over the head's full stream and breaks; a bare goal pulls its stream
once and, if it yielded, yields that single state and breaks. -/
def condaRun : List Clause → State → List State
  | [], _ => []
  | .bare g :: rest, s =>
    match g s with
    | [] => condaRun rest s
    | v :: _ => [v]
  | .arr h tail :: rest, s =>
    match h s with
    | [] => condaRun rest s
    | v :: vs => (v :: vs).flatMap (conjL tail)

/-- `conda(...goals)` (src/mini/minikanren.ts:359-389): no clause is `fail`,
a single clause is returned as its conjunction (an array) or itself (a bare
goal), and two or more clauses run the generator loop `condaRun`. -/
def conda (cs : List Clause) : FinGoal :=
  match cs with
  | [] => failF
  | [.bare g] => g
  | [.arr h tail] => conjL (h :: tail)
  | cs => condaRun cs

/-- The head goal of a clause, whose stream decides commitment. -/
def clauseHead : Clause → FinGoal
  | .bare g => g
  | .arr h _ => h

/-- What `conda` yields once it commits to a clause: an array clause feeds
the head's full stream through the conjunction of its tail; a bare goal
contributes only the first state of its stream. -/
def condaCommit : Clause → State → List State
  | .bare g, s => (g s).take 1
  | .arr h tail, s => (h s).flatMap (conjL tail)

/-- A `condu` clause as the JavaScript value it is: a bare goal or an array
of goals.  `condu` mutates array clauses in place with `shift()`. -/
inductive ClauseU : Type where
  | bare (g : FinGoal)
  | arr (goals : List FinGoal)

/-- A full consumption of `condu(...goals)`'s stream on a state
(src/mini/minikanren.ts:391-414), with the `shift()` mutation made explicit:
the result is the yielded stream together with the clause list as the run
leaves it.  An empty array clause is skipped; a nonempty array clause loses
its head to `goal.shift()`, and if the head yields, its first state feeds
`conj` of the remaining goals and the run breaks; a bare goal commits to
the first state of its stream.  Beheading persists even when the head
yields nothing. -/
def conduRun : List ClauseU → State → List State × List ClauseU
  | [], _ => ([], [])
  | .bare g :: rest, s =>
    match g s with
    | [] =>
      let r := conduRun rest s
      (r.1, .bare g :: r.2)
    | v :: _ => ([v], .bare g :: rest)
  | .arr [] :: rest, s =>
    let r := conduRun rest s
    (r.1, .arr [] :: r.2)
  | .arr (h :: t) :: rest, s =>
    match h s with
    | [] =>
      let r := conduRun rest s
      (r.1, .arr t :: r.2)
    | v :: _ => (conjL t v, .arr t :: rest)

/-- `callFresh(id, gc)` (src/mini/minikanren.ts:182-187): extend the
incoming state with `id ↦ Var(id)` — `extend` overwrites any existing
binding for `id` — and invoke `gc(s)(s)` on the extended state. -/
def callFresh (id : String) (gc : State → FinGoal) : FinGoal :=
  fun s => gc (extend s id (.var id)) (extend s id (.var id))

/-- The ids `crypto.randomUUID()` hands to anonymous `new Var()` variables
(src/mini/minikanren.ts:30), modelled as a deterministic supply of distinct
ids; only their distinctness is observable in the claims. -/
def freshId (i : Nat) : String :=
  String.mk (List.replicate (i + 1) 'v')

/-- The first `k` anonymous variables of the supply. -/
def freshVarsUpTo (k : Nat) : List Term :=
  (List.range k).map (fun i => .var (freshId i))

/-- The contents of the one array a `varList(init)` generator ever
allocates, after `p ≥ 1` pulls: `varList` yields the same `result` array on
every pull and pushes one fresh `Var` onto it between consecutive yields
(src/mini/minikanren.ts:524-529). -/
def varListArrayAfter (init : List Term) (p : Nat) : List Term :=
  init ++ freshVarsUpTo (p - 1)

/-- The binding for the walked list variable `lid` in the `k`-th state
yielded by `listo`'s unbound branch (src/mini/minikanren.ts:532-543), as
observed after `t` total pulls from the same stream (`1 ≤ k ≤ t`): every
yielded state is `extend(s, {lid: result})` for the one shared `result`
array of the `varList()` generator, so the observed list is the array as it
stands after `t` pulls, not as it stood when the state was yielded. -/
def listoYieldObservedAt (s : State) (lid : String) (k t : Nat) :
    Option State :=
  if 1 ≤ k ∧ k ≤ t then some (extend s lid (.seq (varListArrayAfter [] t)))
  else none

/-- The `k`-th state (0-indexed) yielded by `membero(el, list)` when `list`
walks to the unbound variable `l` (src/mini/minikanren.ts:441-453): the
generator iterates `varList([el])`, so at the `k`-th yield the shared array
holds `el` followed by the `k` fresh variables pushed so far, and the yield
is `extend(s, {l: that array})`. -/
def memberoUnboundNth (el : Term) (l : String) (s : State) (k : Nat) :
    State :=
  extend s l (.seq (el :: freshVarsUpTo k))

/-- The head of the list bound to `l` in a state, if any. -/
def boundListHead (st : State) (l : String) : Option Term :=
  match lookup st l with
  | some (.seq (h :: _)) => some h
  | _ => none

/-- The `k`-th state yielded by `ntho(n, list, el)` when both `n` and
`list` are unbound variables (src/mini/minikanren.ts:797-808): the outer
loop over `varList([el])` never advances past its first yield because the
inner loop over `varList()` is infinite, so `tail` stays `[el]`; the `k`-th
yield binds `list ↦ [v1, …, vk, el]` (a spread copy, so not aliased) and
`n ↦ head.length + tail.length = k + 1`, a JavaScript number. -/
def nthoVarVarNth (el : Term) (nid lid : String) (s : State) (k : Nat) :
    State :=
  extend (extend s lid (.seq (freshVarsUpTo k ++ [el]))) nid (.num (k + 1))

/-- JavaScript `list[n]`: the element at a valid index, `undefined`
otherwise (negative or out of range). -/
def jsIndex (list : List Term) (n : Int) : Term :=
  if h : 0 ≤ n ∧ n.toNat < list.length then list.get ⟨n.toNat, h.2⟩
  else .undefined

/-- One of the primitive goals the relational library returns: `succeed`,
`fail`, or `identical(u, v)` (src/mini/minikanren.ts:20-25, 76-81). -/
inductive LibGoal : Type where
  | succeedG
  | failG
  | identicalG (u v : Term)
  deriving DecidableEq

/-- The stream of a library goal on a state, as the list of yielded states;
`identical` yields the unified state when `unify` succeeds within the given
fuel (`none` = out of fuel). -/
def LibGoal.runF (f : Nat) : LibGoal → State → Option (List State)
  | .succeedG, s => some [s]
  | .failG, _ => some []
  | .identicalG u v, s =>
    match unifyF f u v s with
    | none => none
    | some none => some []
    | some (some t) => some [t]

/-- What a library predicate's construction produces: a goal, or a thrown
`InstantiationError` (src/mini/minikanren.ts:434-438). -/
inductive LibResult : Type where
  | goal (g : LibGoal)
  | instantiationError
  deriving DecidableEq

/-- `ntho(n, list, el)` with a ground integer index and a ground array
(src/mini/minikanren.ts:755-764): a variable `el` in range projects the
element through `identical`, out of range fails; a non-variable `el`
succeeds exactly when `el === list[n]`. -/
def nthoGround (n : Int) (list : List Term) (el : Term) : LibGoal :=
  if el.isVar then
    if h : 0 ≤ n ∧ n.toNat < list.length then
      .identicalG el (list.get ⟨n.toNat, h.2⟩)
    else .failG
  else if el = jsIndex list n then .succeedG else .failG

/-- `pluso(a, b, c)` (src/mini/minikanren.ts:685-705), mirroring the
source's type dispatch: three numeric arguments compare
`BigInt(a) + BigInt(b) === BigInt(c)`; one `Var` among numeric arguments is
bound through `identical` to the bigint sum or difference; everything else
falls through to `throw new InstantiationError()`. -/
def pluso (a b c : Term) : LibResult :=
  if a.isNum then
    if b.isNum then
      if c.isNum then
        .goal (if a.intVal + b.intVal = c.intVal then .succeedG else .failG)
      else if c.isVar then
        .goal (.identicalG c (.big (a.intVal + b.intVal)))
      else .instantiationError
    else if b.isVar && c.isNum then
      .goal (.identicalG b (.big (c.intVal - a.intVal)))
    else .instantiationError
  else if a.isVar && b.isNum && c.isNum then
    .goal (.identicalG a (.big (c.intVal - b.intVal)))
  else .instantiationError

/-- The round-robin loop shared verbatim by `disji`
(src/mini/minikanren.ts:158-179) and `condi`
(src/mini/minikanren.ts:332-354): both hold the array `iters` of live
streams and sweep it repeatedly, pulling each stream once per sweep,
yielding the pulled state, or splicing the stream out of the array when it
reports done (without advancing the sweep index, so the following streams
are still pulled in the same sweep).  A stream is modelled denotationally
as the function from pull index to the state that pull yields (`none` = the
generator is exhausted there).

`disjiGoF fuel active r k` is the `k`-th state (0-indexed) the combined
generator yields, counting from the start of sweep `r`, for live streams
whose next pull is their `r`-th: the sweep pulls every live stream at
position `r` in order (`filterMap`), and exactly the streams that reported
done are removed before the next sweep (`filter`).  A sweep that yields
nothing removed every stream, so the combined stream ends (`none`).  The
fuel only bounds the recursion depth; `k + 2` always suffices, because
every recursive step strictly decreases `k` and a yieldless sweep ends the
stream at the next step. -/
def disjiGoF : Nat → List (Nat → Option State) → Nat → Nat → Option State
  | 0, _, _, _ => none
  | fuel + 1, active, r, k =>
    if h : k < (active.filterMap (fun g => g r)).length then
      some ((active.filterMap (fun g => g r)).get ⟨k, h⟩)
    else if (active.filterMap (fun g => g r)).length = 0 then none
    else
      disjiGoF fuel (active.filter (fun g => (g r).isSome)) (r + 1)
        (k - (active.filterMap (fun g => g r)).length)

/-- The `k`-th state the stream of `disji(g1, …, gm)` (equally, of
`condi(c1, …, cm)` applied to its clause streams) yields, the streams of
the goals on the given state being `gs`. -/
def disjiNth (gs : List (Nat → Option State)) (k : Nat) : Option State :=
  disjiGoF (k + 2) gs 0 k

@[simp] theorem lookup_extend_self (s : State) (x : String) (t : Term) :
    lookup (extend s x t) x = some t := by
  simp [lookup, extend]

theorem lookup_extend_ne (s : State) {x y : String} (t : Term) (h : y ≠ x) :
    lookup (extend s x t) y = lookup s y := by
  simp [lookup, extend, h]

theorem walkF_mono {f : Nat} {t r : Term} {s : State}
    (h : walkF f t s = some r) : walkF (f + 1) t s = some r := by
  induction f generalizing t with
  | zero => simp [walkF] at h
  | succ f ih =>
    cases t with
    | var x =>
      rw [walkF] at h ⊢
      cases hl : lookup s x with
      | none => simp only [hl] at h ⊢; exact h
      | some w =>
        simp only [hl] at h ⊢
        by_cases hw : w = .var x
        · rwa [if_pos hw] at h ⊢
        · rw [if_neg hw] at h ⊢
          exact ih h
    | num n => exact h
    | big n => exact h
    | str a => exact h
    | bool b => exact h
    | undefined => exact h
    | seq ts => exact h

theorem walkF_mono_le {f f' : Nat} {t r : Term} {s : State} (hle : f ≤ f')
    (h : walkF f t s = some r) : walkF f' t s = some r := by
  induction f' with
  | zero => exact (Nat.le_zero.mp hle) ▸ h
  | succ f' ih =>
    rcases Nat.lt_or_ge f (f' + 1) with hf | hf
    · exact walkF_mono (ih (Nat.lt_succ_iff.mp hf))
    · exact (Nat.le_antisymm hle hf) ▸ h

theorem walkRes_det {s : State} {t r r' : Term}
    (h : WalkRes s t r) (h' : WalkRes s t r') : r = r' := by
  obtain ⟨f, hf⟩ := h
  obtain ⟨f', hf'⟩ := h'
  rcases Nat.le_total f f' with hle | hle
  · rw [walkF_mono_le hle hf] at hf'
    exact Option.some_inj.mp hf'
  · rw [walkF_mono_le hle hf'] at hf
    exact (Option.some_inj.mp hf).symm

theorem walkF_one_nonvar (t : Term) (s : State) (h : ∀ x, t ≠ .var x) :
    walkF 1 t s = some t := by
  cases t with
  | var x => exact absurd rfl (h x)
  | num n => rfl
  | big n => rfl
  | str a => rfl
  | bool b => rfl
  | undefined => rfl
  | seq ts => rfl

theorem walkRes_nonvar {t : Term} (s : State) (h : ∀ x, t ≠ .var x) :
    WalkRes s t t :=
  ⟨1, walkF_one_nonvar t s h⟩

/-- A variable returned by `walk` is self-bound in the state: the loop only
stops at a `Var` when `s[v.id] === v`. -/
theorem walkRes_var_self {s : State} {t : Term} {x : String}
    (h : WalkRes s t (.var x)) : lookup s x = some (.var x) := by
  obtain ⟨f, hf⟩ := h
  induction f generalizing t with
  | zero => simp [walkF] at hf
  | succ f ih =>
    cases t with
    | var y =>
      rw [walkF] at hf
      cases hl : lookup s y with
      | none => simp only [hl] at hf; simp at hf
      | some w =>
        simp only [hl] at hf
        by_cases hw : w = .var y
        · rw [if_pos hw] at hf
          have : y = x := by
            have := Option.some_inj.mp hf
            exact Term.var.inj this
          rw [← this, ← hw]
          exact hl
        · rw [if_neg hw] at hf
          exact ih hf
    | num n => simp [walkF] at hf
    | big n => simp [walkF] at hf
    | str a => simp [walkF] at hf
    | bool b => simp [walkF] at hf
    | undefined => simp [walkF] at hf
    | seq ts => exact absurd (Option.some_inj.mp hf) (by simp)

/-- `walk` is idempotent: walking a walk result returns it unchanged. -/
theorem walkRes_idem {s : State} {t r : Term} (h : WalkRes s t r) :
    WalkRes s r r := by
  cases r with
  | var x =>
    refine ⟨1, ?_⟩
    rw [walkF, walkRes_var_self h]
    simp
  | num n => exact walkRes_nonvar s (by intro x h; cases h)
  | big n => exact walkRes_nonvar s (by intro x h; cases h)
  | str a => exact walkRes_nonvar s (by intro x h; cases h)
  | bool b => exact walkRes_nonvar s (by intro x h; cases h)
  | undefined => exact walkRes_nonvar s (by intro x h; cases h)
  | seq ts => exact walkRes_nonvar s (by intro x h; cases h)

example :
    unifyF 5 (.var "x") (.num 3) (extend emptyState "x" (.var "x")) =
      some (some (extend (extend emptyState "x" (.var "x")) "x" (.num 3))) := by
  rfl

example :
    unifyF 5 (.seq [.var "x", .num 2]) (.seq [.num 1, .num 2])
        (extend emptyState "x" (.var "x")) =
      some (some (extend (extend emptyState "x" (.var "x")) "x" (.num 1))) := by
  rfl

example :
    unifyF 5 (.seq [.num 1]) (.seq [.num 1, .num 2]) emptyState = some none := by
  rfl

theorem Ext.trans {s t u : State} (h : Ext s t) (h' : Ext t u) : Ext s u := by
  induction h' with
  | refl => exact h
  | step _ hx hw hne ih => exact .step ih hx hw hne

/-- A non-self binding survives every `Ext` step: steps only overwrite
self-bindings. -/
theorem Ext.lookup_frozen {s t : State} (he : Ext s t) {x : String} {w : Term}
    (hx : lookup s x = some w) (hne : w ≠ .var x) : lookup t x = some w := by
  induction he with
  | refl => exact hx
  | @step t₀ y w' _ hy _ _ ih =>
    by_cases hxy : x = y
    · subst hxy
      rw [ih] at hy
      exact absurd (Option.some_inj.mp hy) hne
    · rwa [lookup_extend_ne _ _ hxy]

/-- Walking after a single rebinding step: the old result survives, except
that a walk that used to stop at the rebound variable now continues to the
new value. -/
theorem walkRes_extend_step {t : State} {x : String} {w : Term}
    (hx : lookup t x = some (.var x)) (hw : WalkRes t w w) (hne : w ≠ .var x)
    {a r : Term} (h : WalkRes t a r) :
    WalkRes (extend t x w) a (if r = .var x then w else r) := by
  have hw' : WalkRes (extend t x w) w w := by
    cases w with
    | var z =>
      have hz : lookup t z = some (.var z) := walkRes_var_self hw
      have hzx : z ≠ x := by
        intro hzx
        exact hne (by rw [hzx])
      refine ⟨1, ?_⟩
      rw [walkF, lookup_extend_ne _ _ hzx, hz]
      simp
    | num n => exact walkRes_nonvar _ (by intro z hh; cases hh)
    | big n => exact walkRes_nonvar _ (by intro z hh; cases hh)
    | str c => exact walkRes_nonvar _ (by intro z hh; cases hh)
    | bool b => exact walkRes_nonvar _ (by intro z hh; cases hh)
    | undefined => exact walkRes_nonvar _ (by intro z hh; cases hh)
    | seq ts => exact walkRes_nonvar _ (by intro z hh; cases hh)
  obtain ⟨f, hf⟩ := h
  induction f generalizing a with
  | zero => simp [walkF] at hf
  | succ f ih =>
    cases a with
    | var y =>
      rw [walkF] at hf
      cases hl : lookup t y with
      | none =>
        simp only [hl] at hf
        have hr : r = .undefined := (Option.some_inj.mp hf).symm
        have hyx : y ≠ x := by
          intro hyx
          rw [hyx, hx] at hl
          cases hl
        subst hr
        rw [if_neg (by intro hh; cases hh)]
        refine ⟨1, ?_⟩
        rw [walkF, lookup_extend_ne _ _ hyx, hl]
      | some u =>
        simp only [hl] at hf
        by_cases hu : u = .var y
        · rw [if_pos hu] at hf
          have hr : r = .var y := (Option.some_inj.mp hf).symm
          subst hr
          by_cases hyx : y = x
          · subst hyx
            rw [if_pos rfl]
            obtain ⟨g, hg⟩ := hw'
            refine ⟨g + 1, ?_⟩
            rw [walkF]
            simp only [lookup_extend_self]
            rw [if_neg hne]
            exact hg
          · rw [if_neg (by intro hh; exact hyx (Term.var.inj hh))]
            refine ⟨1, ?_⟩
            rw [walkF, lookup_extend_ne _ _ hyx]
            simp only [hl]
            rw [if_pos hu]
        · rw [if_neg hu] at hf
          have hyx : y ≠ x := by
            intro hyx
            rw [hyx, hx] at hl
            exact hu (by rw [hyx]; exact (Option.some_inj.mp hl).symm)
          obtain ⟨g, hg⟩ := ih hf
          refine ⟨g + 1, ?_⟩
          rw [walkF, lookup_extend_ne _ _ hyx]
          simp only [hl]
          rw [if_neg hu]
          exact hg
    | num n =>
      have hf' : some (Term.num n) = some r := hf
      cases Option.some_inj.mp hf'
      rw [if_neg (by intro hh; cases hh)]
      exact walkRes_nonvar _ (by intro z hh; cases hh)
    | big n =>
      have hf' : some (Term.big n) = some r := hf
      cases Option.some_inj.mp hf'
      rw [if_neg (by intro hh; cases hh)]
      exact walkRes_nonvar _ (by intro z hh; cases hh)
    | str c =>
      have hf' : some (Term.str c) = some r := hf
      cases Option.some_inj.mp hf'
      rw [if_neg (by intro hh; cases hh)]
      exact walkRes_nonvar _ (by intro z hh; cases hh)
    | bool b =>
      have hf' : some (Term.bool b) = some r := hf
      cases Option.some_inj.mp hf'
      rw [if_neg (by intro hh; cases hh)]
      exact walkRes_nonvar _ (by intro z hh; cases hh)
    | undefined =>
      have hf' : some Term.undefined = some r := hf
      cases Option.some_inj.mp hf'
      rw [if_neg (by intro hh; cases hh)]
      exact walkRes_nonvar _ (by intro z hh; cases hh)
    | seq ts =>
      have hf' : some (Term.seq ts) = some r := hf
      cases Option.some_inj.mp hf'
      rw [if_neg (by intro hh; cases hh)]
      exact walkRes_nonvar _ (by intro z hh; cases hh)

/-- Walk results transported along `Ext`: the walk of `a` stays defined in
the extended state, and the old result walks to the new result there. -/
theorem walkRes_ext {s t : State} (he : Ext s t) {a r : Term}
    (h : WalkRes s a r) : ∃ r', WalkRes t a r' ∧ WalkRes t r r' := by
  induction he with
  | refl => exact ⟨r, h, walkRes_idem h⟩
  | @step t₀ x w _ hx hw hne ih =>
    obtain ⟨r₁, har, hrr⟩ := ih
    exact ⟨if r₁ = .var x then w else r₁,
      walkRes_extend_step hx hw hne har,
      walkRes_extend_step hx hw hne hrr⟩

theorem WalkedEq.symm {s : State} {u v : Term} (h : WalkedEq s u v) :
    WalkedEq s v u := by
  induction h with
  | same hu hv => exact .same hv hu
  | seqs hu hv hlen _ ih =>
    exact .seqs hv hu hlen.symm (fun i h h' => ih i h' h)

/-- `WalkedEq` is preserved by the rebindings of `Ext`. -/
theorem WalkedEq.ext {s t : State} (he : Ext s t) {u v : Term}
    (h : WalkedEq s u v) : WalkedEq t u v := by
  induction h with
  | same hu hv =>
    obtain ⟨r₁, hur, hr₁⟩ := walkRes_ext he hu
    obtain ⟨r₂, hvr, hr₂⟩ := walkRes_ext he hv
    exact .same hur ((walkRes_det hr₂ hr₁) ▸ hvr)
  | @seqs u₀ v₀ us vs hu hv hlen _ ih =>
    obtain ⟨r₁, hur, hr₁⟩ := walkRes_ext he hu
    obtain ⟨r₂, hvr, hr₂⟩ := walkRes_ext he hv
    have e₁ : r₁ = .seq us :=
      (walkRes_det hr₁ (walkRes_nonvar _ (by intro z hh; cases hh)))
    have e₂ : r₂ = .seq vs :=
      (walkRes_det hr₂ (walkRes_nonvar _ (by intro z hh; cases hh)))
    subst e₁; subst e₂
    exact .seqs hur hvr hlen ih

/-- The effect of `unify`'s variable-binding branch: once the walked `u` is
a self-bound variable `x` and the walked `v` is `v' ≠ Var(x)`, extending
with `x ↦ v'` makes `u` and `v` walked-equal in every further extension. -/
theorem walkedEq_of_bind {s : State} {x : String} {u v v' : Term}
    (hru : WalkRes s u (.var x)) (hrv : WalkRes s v v') (hne : v' ≠ .var x) :
    Ext s (extend s x v') ∧
      ∀ w, Ext (extend s x v') w → WalkedEq w u v := by
  have hx : lookup s x = some (.var x) := walkRes_var_self hru
  have hvv : WalkRes s v' v' := walkRes_idem hrv
  have hstep : Ext s (extend s x v') := .step (.refl s) hx hvv hne
  refine ⟨hstep, ?_⟩
  intro w hw
  have hsw : Ext s w := hstep.trans hw
  obtain ⟨r₁, hur, hr₁⟩ := walkRes_ext hsw hru
  obtain ⟨r₂, hvr, hr₂⟩ := walkRes_ext hsw hrv
  have hlw : lookup w x = some v' :=
    Ext.lookup_frozen hw (lookup_extend_self s x v') hne
  have hxr₂ : WalkRes w (.var x) r₂ := by
    obtain ⟨g, hg⟩ := hr₂
    refine ⟨g + 1, ?_⟩
    rw [walkF]
    simp only [hlw]
    rw [if_neg hne]
    exact hg
  exact .same hur ((walkRes_det hxr₂ hr₁) ▸ hvr)

/-- Soundness of `unify`, strengthened for the fold over array elements:
a successful unification only rebinds self-bound variables (`Ext`), and the
two terms are walked-equal in the result state and in every further legal
extension of it. -/
theorem unify_sound_aux : ∀ f : Nat,
    (∀ u v s s', unifyF f u v s = some (some s') →
      Ext s s' ∧ ∀ w, Ext s' w → WalkedEq w u v) ∧
    (∀ as bs s s', unifyListF f as bs s = some (some s') →
      Ext s s' ∧ ∀ w, Ext s' w →
        ∀ (i : Nat) (h : i < as.length) (h' : i < bs.length),
          WalkedEq w (as.get ⟨i, h⟩) (bs.get ⟨i, h'⟩)) := by
  intro f
  induction f with
  | zero =>
    constructor
    · intro u v s s' h
      simp [unifyF] at h
    · intro as bs s s' h
      simp [unifyListF] at h
  | succ f ih =>
    constructor
    · intro u v s s' h
      rw [unifyF] at h
      cases hu : walkF (f + 1) u s with
      | none => simp only [hu] at h; cases h
      | some u' =>
        cases hv : walkF (f + 1) v s with
        | none => simp only [hu, hv] at h; cases h
        | some v' =>
          simp only [hu, hv] at h
          have hru : WalkRes s u u' := ⟨f + 1, hu⟩
          have hrv : WalkRes s v v' := ⟨f + 1, hv⟩
          by_cases heq : u' = v'
          · rw [if_pos heq] at h
            have hs : s = s' := Option.some_inj.mp (Option.some_inj.mp h)
            subst hs
            refine ⟨.refl s, ?_⟩
            intro w hw
            have hrv' : WalkRes s v u' := by rw [heq]; exact hrv
            obtain ⟨r₁, hur, hr₁⟩ := walkRes_ext hw hru
            obtain ⟨r₂, hvr, hr₂⟩ := walkRes_ext hw hrv'
            exact .same hur ((walkRes_det hr₂ hr₁) ▸ hvr)
          · rw [if_neg heq] at h
            split at h
            · -- `u'` is a variable: bind it to `v'`
              rename_i x
              have hs : extend s x v' = s' :=
                Option.some_inj.mp (Option.some_inj.mp h)
              subst hs
              exact walkedEq_of_bind hru hrv (fun hh => heq (by rw [hh]))
            · -- `v'` is a variable: bind it to `u'`
              rename_i y hno
              have hs : extend s y u' = s' :=
                Option.some_inj.mp (Option.some_inj.mp h)
              subst hs
              have hres :=
                walkedEq_of_bind hrv hru (fun hh => heq (by rw [hh]))
              exact ⟨hres.1, fun w hw => (hres.2 w hw).symm⟩
            · -- two arrays: fold over the elements
              rename_i us vs
              by_cases hlen : us.length = vs.length
              · rw [if_pos hlen] at h
                obtain ⟨hExt, helem⟩ := (ih).2 us vs s s' h
                refine ⟨hExt, ?_⟩
                intro w hw
                have hsw : Ext s w := hExt.trans hw
                obtain ⟨r₁, hur, hr₁⟩ := walkRes_ext hsw hru
                obtain ⟨r₂, hvr, hr₂⟩ := walkRes_ext hsw hrv
                have e₁ : r₁ = .seq us :=
                  walkRes_det hr₁ (walkRes_nonvar _ (by intro z hh; cases hh))
                have e₂ : r₂ = .seq vs :=
                  walkRes_det hr₂ (walkRes_nonvar _ (by intro z hh; cases hh))
                subst e₁; subst e₂
                exact .seqs hur hvr hlen (helem w hw)
              · rw [if_neg hlen] at h
                exact absurd (Option.some_inj.mp h) (by simp)
            · -- incompatible walked values: FAIL
              exact absurd (Option.some_inj.mp h) (by simp)
    · intro as bs s s' h
      cases as with
      | nil =>
        cases bs with
        | nil =>
          have h' : (some (some s) : Option (Option State)) = some (some s') := h
          have hs : s = s' := Option.some_inj.mp (Option.some_inj.mp h')
          subst hs
          refine ⟨.refl s, ?_⟩
          intro w _ i hi _
          exact absurd hi (by simp)
        | cons b bs =>
          have h' : (some none : Option (Option State)) = some (some s') := h
          cases Option.some_inj.mp h'
      | cons a as =>
        cases bs with
        | nil =>
          have h' : (some none : Option (Option State)) = some (some s') := h
          cases Option.some_inj.mp h'
        | cons b bs =>
          rw [unifyListF] at h
          cases hab : unifyF f a b s with
          | none => simp only [hab] at h; cases h
          | some o =>
            cases o with
            | none => simp only [hab] at h; cases h
            | some t =>
              simp only [hab] at h
              obtain ⟨hExt1, hall1⟩ := (ih).1 a b s t hab
              obtain ⟨hExt2, hall2⟩ := (ih).2 as bs t s' h
              refine ⟨hExt1.trans hExt2, ?_⟩
              intro w hw i hi hi'
              cases i with
              | zero => exact hall1 w (hExt2.trans hw)
              | succ i =>
                exact hall2 w hw i (Nat.succ_lt_succ_iff.mp hi)
                  (Nat.succ_lt_succ_iff.mp hi')

/-- C2.  For all terms `u`, `v` and every substitution `s`, if
`unify(u, v, s)` returns a substitution `s'` rather than failing, then
`walk(u, s')` and `walk(v, s')` are equal up to structural equality: the
same variable, equal atoms, or sequences whose corresponding elements are
equal after resolution in `s'`. -/
theorem C2_unify_sound (f : Nat) (u v : Term) (s s' : State)
    (h : unifyF f u v s = some (some s')) : WalkedEq s' u v :=
  ((unify_sound_aux f).1 u v s s' h).2 s' (.refl s')

/-- Witness for C2 at a concrete input: unifying `Var("x")` with `3` in the
state where `x` is fresh binds `x ↦ 3`, and the two terms are walked-equal
in the result. -/
theorem C2_unify_sound_witness :
    unifyF 5 (.var "x") (.num 3) (extend emptyState "x" (.var "x")) =
      some (some (extend (extend emptyState "x" (.var "x")) "x" (.num 3))) ∧
    WalkedEq (extend (extend emptyState "x" (.var "x")) "x" (.num 3))
      (.var "x") (.num 3) :=
  ⟨rfl, C2_unify_sound 5 (.var "x") (.num 3) (extend emptyState "x" (.var "x"))
    (extend (extend emptyState "x" (.var "x")) "x" (.num 3)) rfl⟩

/-- C1, counterexample.  The occurs-check unifier does produce a cyclic
substitution: unifying `[x]` with `[[x]]` (both sequences, so the binding of
`x` happens while unifying corresponding elements) in the state where `x` is
fresh passes the top-level occurs check and binds `x ↦ [x]`, a term that
mentions `x`. -/
theorem C1_counterexample :
    unifyCheckF 8 (.seq [.var "x"]) (.seq [.seq [.var "x"]])
        (extend emptyState "x" (.var "x")) =
      some (some (extend (extend emptyState "x" (.var "x")) "x"
        (.seq [.var "x"]))) ∧
    cyclicBinding
      (extend (extend emptyState "x" (.var "x")) "x" (.seq [.var "x"])) "x"
        = true :=
  ⟨rfl, rfl⟩

/-- A raw syntactic occurrence of the self-bound variable `x` in a term is
found by `occursCheck`: when the check reports a result, a mention forces
that result to be `true` (the mentioned `var x` walks to itself and matches
the `x === v` comparison). -/
theorem occursF_true_of_mentions (x : String) (s : State)
    (hx : lookup s x = some (.var x)) :
    ∀ f : Nat,
      (∀ (w : Term) (b : Bool), occursF f (.var x) w s = some b →
        Term.mentionsVar x w = true → b = true) ∧
      (∀ (ws : List Term) (b : Bool), occursListF f (.var x) ws s = some b →
        Term.mentionsVarList x ws = true → b = true) := by
  intro f
  induction f with
  | zero =>
    constructor
    · intro w b h _
      simp [occursF] at h
    · intro ws b h _
      simp [occursListF] at h
  | succ f ih =>
    constructor
    · intro w b h hm
      rw [occursF] at h
      cases w with
      | var y =>
        have hxy : x = y := by simpa [Term.mentionsVar] using hm
        subst hxy
        have hw : walkF (f + 1) (.var x) s = some (.var x) := by
          rw [walkF]
          simp [hx]
        simp only [hw] at h
        simp at h
        exact h
      | seq ws =>
        have hw : walkF (f + 1) (.seq ws) s = some (.seq ws) := rfl
        simp only [hw] at h
        exact ih.2 ws b h (by simpa [Term.mentionsVar] using hm)
      | num n => simp [Term.mentionsVar] at hm
      | big n => simp [Term.mentionsVar] at hm
      | str a => simp [Term.mentionsVar] at hm
      | bool c => simp [Term.mentionsVar] at hm
      | undefined => simp [Term.mentionsVar] at hm
    · intro ws b h hm
      cases ws with
      | nil => simp [Term.mentionsVarList] at hm
      | cons w ws =>
        rw [occursListF] at h
        rw [Term.mentionsVarList, Bool.or_eq_true] at hm
        cases hw0 : occursF f (.var x) w s with
        | none => simp only [hw0] at h; cases h
        | some b0 =>
          cases b0 with
          | true =>
            simp only [hw0] at h
            exact (Option.some_inj.mp h).symm
          | false =>
            simp only [hw0] at h
            cases hm with
            | inl hmw => cases ih.1 w false hw0 hmw
            | inr hmws => exact ih.2 ws b h hmws

/-- When `occursCheck(Var(x), v, s)` reports `false`, the walked form of
`v` does not mention `x` syntactically. -/
theorem mentions_walked_false (x : String) (s : State) (f : Nat)
    {v v' : Term} (hx : lookup s x = some (.var x))
    (hocc : occursF f (.var x) v s = some false)
    (hwalk : walkF f v s = some v') :
    Term.mentionsVar x v' = false := by
  cases f with
  | zero => simp [occursF] at hocc
  | succ f =>
    rw [occursF] at hocc
    simp only [hwalk] at hocc
    cases v' with
    | var y =>
      have hxy : ¬ (Term.var x = Term.var y) := by
        intro hh
        rw [hh] at hocc
        simp at hocc
      rw [Term.mentionsVar]
      simp only [decide_eq_false_iff_not]
      intro hh
      exact hxy (by rw [hh])
    | seq ws =>
      rw [Term.mentionsVar]
      by_cases hm : Term.mentionsVarList x ws = true
      · cases (occursF_true_of_mentions x s hx f).2 ws false hocc hm
      · exact Bool.not_eq_true _ ▸ (by simpa using hm)
    | num n => rfl
    | big n => rfl
    | str a => rfl
    | bool c => rfl
    | undefined => rfl

/-- C1, amended.  `unifyCheck` applies the occurs check only to the two
whole (unwalked) arguments, before unification: when `u ≠ v` it fails as
soon as either term occurs in the other, evaluating `occursCheck(u, v, s)`
first and short-circuiting; when neither occurs (or `u === v`) it behaves
exactly as the plain `unify`.  Consequently a binding made at the top level
— the whole argument `u` is an unbound variable — is never directly cyclic,
but `unify`'s bindings of sequence elements are not occurs-checked and can
be cyclic (see the counterexample). -/
theorem C1_unifyCheck_top_level_guard (f : Nat) (u v : Term) (s : State) :
    (u = v → unifyCheckF f u v s = unifyF f u v s) ∧
    (u ≠ v → occursF f u v s = some true → unifyCheckF f u v s = some none) ∧
    (u ≠ v → occursF f u v s = some false → occursF f v u s = some true →
      unifyCheckF f u v s = some none) ∧
    (u ≠ v → occursF f u v s = some false → occursF f v u s = some false →
      unifyCheckF f u v s = unifyF f u v s) ∧
    (∀ (x : String) (s' : State), u = .var x → u ≠ v →
      lookup s x = some (.var x) → unifyCheckF f u v s = some (some s') →
      cyclicBinding s' x = false) := by
  refine ⟨?_, ?_, ?_, ?_, ?_⟩
  · intro hv
    rw [unifyCheckF, if_pos hv]
  · intro hne hocc
    rw [unifyCheckF, if_neg hne]
    simp only [hocc]
  · intro hne hocc hocc'
    rw [unifyCheckF, if_neg hne]
    simp only [hocc, hocc']
  · intro hne hocc hocc'
    rw [unifyCheckF, if_neg hne]
    simp only [hocc, hocc']
  · intro x s' hu hne hx h
    subst hu
    rw [unifyCheckF, if_neg hne] at h
    cases hocc : occursF f (.var x) v s with
    | none => simp only [hocc] at h; cases h
    | some b =>
      cases b with
      | true =>
        simp only [hocc] at h
        cases Option.some_inj.mp h
      | false =>
        simp only [hocc] at h
        cases hocc' : occursF f v (.var x) s with
        | none => simp only [hocc'] at h; cases h
        | some b' =>
          cases b' with
          | true =>
            simp only [hocc'] at h
            cases Option.some_inj.mp h
          | false =>
            simp only [hocc'] at h
            cases f with
            | zero => simp [unifyF] at h
            | succ f =>
              rw [unifyF] at h
              have hwx : walkF (f + 1) (.var x) s = some (.var x) := by
                rw [walkF]
                simp [hx]
              cases hv : walkF (f + 1) v s with
              | none => simp only [hwx, hv] at h; cases h
              | some v' =>
                simp only [hwx, hv] at h
                by_cases heq : Term.var x = v'
                · rw [if_pos heq] at h
                  have hs : s = s' := Option.some_inj.mp (Option.some_inj.mp h)
                  subst hs
                  rw [cyclicBinding, hx]
                  simp
                · rw [if_neg heq] at h
                  have hs : extend s x v' = s' :=
                    Option.some_inj.mp (Option.some_inj.mp h)
                  subst hs
                  rw [cyclicBinding]
                  simp only [lookup_extend_self]
                  rw [if_neg (fun hh => heq hh.symm)]
                  exact mentions_walked_false x s (f + 1) hx hocc hv

/-- C3.  Substitutions are not immutable in the sense of the claim:
`listo(x)` with `x` unbound binds every yielded state to the one shared
`varList()` array, which grows by one fresh variable per pull.  The list
bound in the first yielded state has length 0 observed at yield time
(`t = 1`) but length 1 once the consumer has pulled a second state from the
same stream (`t = 2`), while the claim says it never changes. -/
theorem C3_listo_shared_array_mutates :
    listoYieldObservedAt emptyState "l" 1 1 =
      some (extend emptyState "l" (.seq [])) ∧
    listoYieldObservedAt emptyState "l" 1 2 =
      some (extend emptyState "l" (.seq [.var (freshId 0)])) ∧
    listoYieldObservedAt emptyState "l" 1 1 ≠
      listoYieldObservedAt emptyState "l" 1 2 := by
  refine ⟨rfl, rfl, ?_⟩
  decide

/-- C4.  `condu` is impure: `goal.shift()` mutates the array clause in
place, so invoking the same `condu` goal twice on the same state yields
different streams.  `condu([fail, succeed])` yields nothing on its first
full consumption — and removes `fail` from the caller's clause array — and
on the second invocation commits to the now-leading `succeed`, yielding the
state. -/
theorem C4_condu_impure :
    (conduRun [.arr [failF, succeedF]] emptyState).1 = [] ∧
    (conduRun (conduRun [.arr [failF, succeedF]] emptyState).2
        emptyState).1 = [emptyState] :=
  ⟨rfl, rfl⟩

/-- C5, counterexample.  A bare goal is not treated as a single-element
clause: committed to, a bare `disj(succeed, succeed)` yields only the first
of its two states, while the same goal as the head of a one-element array
clause yields its full stream. -/
theorem C5_counterexample :
    conda [.bare (disjL [succeedF, succeedF]), .bare failF] emptyState =
      [emptyState] ∧
    conda [.arr (disjL [succeedF, succeedF]) [], .bare failF] emptyState =
      [emptyState, emptyState] :=
  ⟨rfl, rfl⟩

/-- C5, amended.  `conda` commits to the first clause whose head yields at
least one substitution: clauses before it (their heads yield nothing — they
are pulled once and contribute only that emptiness) are skipped, all
clauses after it are discarded, and the committed clause contributes its
full head stream through the remaining conjuncts when it is an array
clause, but only the first substitution of its stream when it is a bare
goal. -/
theorem C5_conda_soft_cut (pre : List Clause) (c : Clause)
    (post : List Clause) (s : State)
    (hpre : ∀ c' ∈ pre, clauseHead c' s = [])
    (hc : clauseHead c s ≠ []) :
    condaRun (pre ++ c :: post) s = condaCommit c s := by
  induction pre with
  | nil =>
    rw [List.nil_append]
    cases c with
    | bare g =>
      cases hg : g s with
      | nil => exact absurd hg hc
      | cons v vs =>
        show condaRun (.bare g :: post) s = (g s).take 1
        rw [condaRun]
        simp only [hg]
        rfl
    | arr h tail =>
      cases hh : h s with
      | nil => exact absurd hh hc
      | cons v vs =>
        show condaRun (.arr h tail :: post) s = (h s).flatMap (conjL tail)
        rw [condaRun]
        simp only [hh]
  | cons c' pre ih =>
    have h0 : clauseHead c' s = [] := hpre c' (List.mem_cons_self c' pre)
    have hrest : ∀ c'' ∈ pre, clauseHead c'' s = [] :=
      fun c'' hm => hpre c'' (List.mem_cons_of_mem c' hm)
    cases c' with
    | bare g =>
      rw [List.cons_append, condaRun]
      simp only [show g s = [] from h0]
      exact ih hrest
    | arr h tail =>
      rw [List.cons_append, condaRun]
      simp only [show h s = [] from h0]
      exact ih hrest

/-- Witness for C5 at a concrete input: a failing bare head is skipped and
the array clause `[succeed]` commits, yielding the state once. -/
theorem C5_conda_soft_cut_witness :
    condaRun [.bare failF, .arr succeedF []] emptyState =
      condaCommit (.arr succeedF []) emptyState :=
  C5_conda_soft_cut [.bare failF] (.arr succeedF []) [] emptyState
    (by
      intro c' hc'
      rw [List.mem_singleton] at hc'
      subst hc'
      rfl)
    (by
      intro hh
      exact List.cons_ne_nil emptyState [] hh)

/-- C7, counterexample.  `membero(1, list)` with `list` walking to an
unbound variable puts `1` at the head of every binding it emits — the
bound list's head is `1`, never a fresh variable, at every position of the
stream — whereas the claim requires bindings with `1` at every position
`k ≥ 2` as well (whose head would be a fresh variable). -/
theorem C7_counterexample :
    ((fun k => boundListHead (memberoUnboundNth (.num 1) "l" emptyState k) "l") =
      fun _ => some (.num 1)) ∧
    ((fun k =>
        (boundListHead (memberoUnboundNth (.num 1) "l" emptyState k) "l").map
          Term.isVar) = fun _ => some false) :=
  ⟨funext fun _ => rfl, funext fun _ => rfl⟩

/-- C7, amended.  `membero(el, list)` with `list` walked to the unbound
variable `l` emits, for every `k ≥ 0`, the extension binding `l` to the
list `[el, v1, …, vk]`: `el` always at the head, followed by `k` pairwise
distinct anonymous variables, with all other bindings untouched — an
infinite lazy enumeration of head contexts, one per list length `n = k+1 ≥
1`. -/
theorem C7_membero_unbound_enumeration (el : Term) (l : String) (s : State)
    (k : Nat) :
    lookup (memberoUnboundNth el l s k) l =
      some (.seq (el :: freshVarsUpTo k)) ∧
    (freshVarsUpTo k).length = k ∧
    (∀ t ∈ freshVarsUpTo k, t.isVar = true) ∧
    (freshVarsUpTo k).Nodup ∧
    (∀ y, y ≠ l → lookup (memberoUnboundNth el l s k) y = lookup s y) := by
  refine ⟨lookup_extend_self s l _, ?_, ?_, ?_, ?_⟩
  · simp [freshVarsUpTo]
  · intro t ht
    simp only [freshVarsUpTo, List.mem_map] at ht
    obtain ⟨i, _, rfl⟩ := ht
    rfl
  · refine List.Nodup.map ?_ (List.nodup_range k)
    intro a b hab
    have h2 := congrArg String.length (Term.var.inj hab)
    simp only [freshId, String.length, List.length_replicate] at h2
    omega
  · intro y hy
    exact lookup_extend_ne s _ hy

/-- C8.  `ntho(n, list, el)` with `n` and `list` both unbound binds `n` to
`head.length + tail.length = k + 1` at the `k`-th yield, that is to the
yielded list's length, not to the 0-based position `k` at which `el` sits:
the first yield is `{list: ["g"], n: 1}`, yet by `ntho`'s own ground mode
`ntho(1, ["g"], "g")` fails and `ntho(0, ["g"], "g")` succeeds. -/
theorem C8_ntho_var_var_off_by_one :
    nthoVarVarNth (.str "g") "n" "l" emptyState 0 =
      extend (extend emptyState "l" (.seq [.str "g"])) "n" (.num 1) ∧
    lookup (nthoVarVarNth (.str "g") "n" "l" emptyState 0) "n" =
      some (.num 1) ∧
    nthoGround 1 [.str "g"] (.str "g") = .failG ∧
    nthoGround 0 [.str "g"] (.str "g") = .succeedG := by
  refine ⟨rfl, rfl, ?_, ?_⟩ <;> decide

/-- C10, counterexample.  The shadowed outer binding is not absent from
every substitution the resulting goal yields: with `x ↦ 3` shadowed by
`callFresh("x", …)`, a goal body that unifies the fresh `x` with `3` yields
a substitution in which the binding `x ↦ 3` is present again. -/
theorem C10_counterexample :
    callFresh "x"
        (fun _ st =>
          match unifyF 3 (.var "x") (.num 3) st with
          | some (some t) => [t]
          | _ => [])
        (extend emptyState "x" (.num 3)) =
      [extend (extend (extend emptyState "x" (.num 3)) "x" (.var "x")) "x"
        (.num 3)] ∧
    lookup
        (extend (extend (extend emptyState "x" (.num 3)) "x" (.var "x")) "x"
          (.num 3)) "x" = some (.num 3) :=
  ⟨rfl, rfl⟩

/-- C10, amended.  `callFresh(id, gc)` always rebinds `id`: the state passed
to `gc` (both as environment and as argument) maps `id` to the fresh
`Var(id)`, silently overwriting any existing binding, leaves every other
binding unchanged, and raises no error; what the resulting goal yields is
whatever `gc`'s goal yields from that state — which can re-introduce a
binding equal to the shadowed one by unification. -/
theorem C10_callFresh_always_rebinds (id : String) (gc : State → FinGoal)
    (s : State) :
    callFresh id gc s =
      gc (extend s id (.var id)) (extend s id (.var id)) ∧
    lookup (extend s id (.var id)) id = some (.var id) ∧
    (∀ y, y ≠ id → lookup (extend s id (.var id)) y = lookup s y) :=
  ⟨rfl, lookup_extend_self s id (.var id),
    fun _ hy => lookup_extend_ne s (.var id) hy⟩

@[simp] theorem Term.isNum_var (x : String) : (Term.var x).isNum = false :=
  rfl

@[simp] theorem Term.isVar_var (x : String) : (Term.var x).isVar = true :=
  rfl

/-- Unifying an unbound (self-bound) variable with a non-variable term
binds the variable to it. -/
theorem unifyF_var_ground {s : State} {x : String} {t : Term} (f : Nat)
    (hx : lookup s x = some (.var x)) (ht : ∀ y, t ≠ .var y) :
    unifyF (f + 1) (.var x) t s = some (some (extend s x t)) := by
  have hwx : walkF (f + 1) (.var x) s = some (.var x) := by
    rw [walkF]
    simp [hx]
  have hwt : walkF (f + 1) t s = some t :=
    walkF_mono_le (by omega) (walkF_one_nonvar t s ht)
  rw [unifyF]
  simp only [hwx, hwt]
  rw [if_neg (fun hh => ht x hh.symm)]

/-- The stream of `identical(Var(x), t)` on a state where `x` is unbound:
exactly one yielded state, binding `x ↦ t`. -/
theorem libGoal_identical_var_ground {s : State} {x : String} {t : Term}
    (f : Nat) (hx : lookup s x = some (.var x)) (ht : ∀ y, t ≠ .var y) :
    LibGoal.runF (f + 1) (.identicalG (.var x) t) s =
      some [extend s x t] := by
  rw [LibGoal.runF]
  simp only [unifyF_var_ground f hx ht]

/-- C9.  `pluso(a, b, c)`: with three ground numeric arguments it succeeds
exactly when `a + b = c` (and fails exactly otherwise); with exactly one
argument an unbound variable it returns `identical` of that variable with
the arbitrary-precision (`bigint`) sum or difference, which yields exactly
one substitution binding the variable; with two or more variable arguments
it raises `InstantiationError` instead of failing silently. -/
theorem C9_pluso_modes :
    (∀ a b c : Term, a.isNum = true → b.isNum = true → c.isNum = true →
      (pluso a b c = .goal .succeedG ↔ a.intVal + b.intVal = c.intVal) ∧
      (pluso a b c = .goal .failG ↔ ¬a.intVal + b.intVal = c.intVal)) ∧
    (∀ (a b : Term) (x : String) (s : State) (f : Nat),
      a.isNum = true → b.isNum = true → lookup s x = some (.var x) →
      pluso a b (.var x) =
        .goal (.identicalG (.var x) (.big (a.intVal + b.intVal))) ∧
      LibGoal.runF (f + 1)
          (.identicalG (.var x) (.big (a.intVal + b.intVal))) s =
        some [extend s x (.big (a.intVal + b.intVal))]) ∧
    (∀ (a c : Term) (y : String) (s : State) (f : Nat),
      a.isNum = true → c.isNum = true → lookup s y = some (.var y) →
      pluso a (.var y) c =
        .goal (.identicalG (.var y) (.big (c.intVal - a.intVal))) ∧
      LibGoal.runF (f + 1)
          (.identicalG (.var y) (.big (c.intVal - a.intVal))) s =
        some [extend s y (.big (c.intVal - a.intVal))]) ∧
    (∀ (b c : Term) (x : String) (s : State) (f : Nat),
      b.isNum = true → c.isNum = true → lookup s x = some (.var x) →
      pluso (.var x) b c =
        .goal (.identicalG (.var x) (.big (c.intVal - b.intVal))) ∧
      LibGoal.runF (f + 1)
          (.identicalG (.var x) (.big (c.intVal - b.intVal))) s =
        some [extend s x (.big (c.intVal - b.intVal))]) ∧
    (∀ (x y : String) (c : Term),
      pluso (.var x) (.var y) c = .instantiationError) ∧
    (∀ (x : String) (b : Term) (z : String),
      pluso (.var x) b (.var z) = .instantiationError) ∧
    (∀ (a : Term) (y z : String),
      pluso a (.var y) (.var z) = .instantiationError) := by
  refine ⟨?_, ?_, ?_, ?_, ?_, ?_, ?_⟩
  · intro a b c ha hb hc
    by_cases hsum : a.intVal + b.intVal = c.intVal <;>
      simp [pluso, ha, hb, hc, hsum]
  · intro a b x s f ha hb hx
    refine ⟨?_, ?_⟩
    · simp [pluso, ha, hb]
    · exact libGoal_identical_var_ground f hx (by intro y hh; cases hh)
  · intro a c y s f ha hc hy
    refine ⟨?_, ?_⟩
    · simp [pluso, ha, hc]
    · exact libGoal_identical_var_ground f hy (by intro z hh; cases hh)
  · intro b c x s f hb hc hx
    refine ⟨?_, ?_⟩
    · simp [pluso, hb, hc]
    · exact libGoal_identical_var_ground f hx (by intro z hh; cases hh)
  · intro x y c
    simp [pluso]
  · intro x b z
    simp [pluso]
  · intro a y z
    by_cases haN : a.isNum = true <;> simp [pluso, haN]

theorem filterMap_length_of_isSome {α β : Type _} (f : α → Option β)
    (l : List α) (h : ∀ a ∈ l, (f a).isSome) :
    (l.filterMap f).length = l.length := by
  induction l with
  | nil => rfl
  | cons a l ih =>
    obtain ⟨b, hb⟩ :=
      Option.isSome_iff_exists.mp (h a (List.mem_cons_self a l))
    rw [List.filterMap_cons_some hb, List.length_cons, List.length_cons,
      ih (fun a ha => h a (List.mem_cons_of_mem _ ha))]

theorem filterMap_get?_of_isSome {α β : Type _} (f : α → Option β) :
    ∀ (l : List α) (i : Nat) (hi : i < l.length),
      (∀ a ∈ l, (f a).isSome) →
      (l.filterMap f).get? i = f (l.get ⟨i, hi⟩) := by
  intro l
  induction l with
  | nil => intro i hi; simp at hi
  | cons a l ih =>
    intro i hi h
    obtain ⟨b, hb⟩ :=
      Option.isSome_iff_exists.mp (h a (List.mem_cons_self a l))
    rw [List.filterMap_cons_some hb]
    cases i with
    | zero => simpa using hb.symm
    | succ i =>
      rw [List.get?_cons_succ]
      exact ih i (Nat.succ_lt_succ_iff.mp hi)
        (fun a ha => h a (List.mem_cons_of_mem _ ha))

theorem disjiGoF_mono : ∀ {fuel : Nat} {gs : List (Nat → Option State)}
    {r k : Nat} {x : State}, disjiGoF fuel gs r k = some x →
    disjiGoF (fuel + 1) gs r k = some x := by
  intro fuel
  induction fuel with
  | zero => intro gs r k x h; simp [disjiGoF] at h
  | succ fuel ih =>
    intro gs r k x h
    rw [disjiGoF] at h ⊢
    by_cases hk : k < (gs.filterMap (fun g => g r)).length
    · rwa [dif_pos hk] at h ⊢
    · rw [dif_neg hk] at h ⊢
      by_cases h0 : (gs.filterMap (fun g => g r)).length = 0
      · rw [if_pos h0] at h
        cases h
      · rw [if_neg h0] at h ⊢
        exact ih h

theorem disjiGoF_mono_le {fuel fuel' : Nat} {gs : List (Nat → Option State)}
    {r k : Nat} {x : State} (hle : fuel ≤ fuel')
    (h : disjiGoF fuel gs r k = some x) : disjiGoF fuel' gs r k = some x := by
  induction fuel' with
  | zero => exact (Nat.le_zero.mp hle) ▸ h
  | succ fuel' ih =>
    rcases Nat.lt_or_ge fuel (fuel' + 1) with hf | hf
    · exact disjiGoF_mono (ih (Nat.lt_succ_iff.mp hf))
    · exact (Nat.le_antisymm hle hf) ▸ h

/-- A yielded result never needs more fuel than `k + 2`. -/
theorem disjiGoF_fuel_k : ∀ {fuel : Nat} {gs : List (Nat → Option State)}
    {r k : Nat} {x : State}, disjiGoF fuel gs r k = some x →
    disjiGoF (k + 2) gs r k = some x := by
  intro fuel
  induction fuel with
  | zero => intro gs r k x h; simp [disjiGoF] at h
  | succ fuel ih =>
    intro gs r k x h
    rw [disjiGoF] at h
    rw [show k + 2 = (k + 1) + 1 from rfl, disjiGoF]
    by_cases hk : k < (gs.filterMap (fun g => g r)).length
    · rwa [dif_pos hk] at h ⊢
    · rw [dif_neg hk] at h ⊢
      by_cases h0 : (gs.filterMap (fun g => g r)).length = 0
      · rw [if_pos h0] at h
        cases h
      · rw [if_neg h0] at h ⊢
        refine disjiGoF_mono_le ?_ (ih h)
        generalize (gs.filterMap (fun g => g r)).length = L at hk h0 ⊢
        omega

/-- Strict round-robin of the shared `disji`/`condi` loop: while no stream
is exhausted, the `(e·m + j)`-th yield is the `e`-th element of stream
`j`. -/
theorem disjiGoF_round_robin :
    ∀ (e : Nat) (gs : List (Nat → Option State)) (r j fuel : Nat)
      (hj : j < gs.length) (hfuel : e * gs.length + j + 2 ≤ fuel)
      (halive : ∀ g ∈ gs, ∀ e', e' ≤ e → (g (r + e')).isSome),
      disjiGoF fuel gs r (e * gs.length + j) = (gs.get ⟨j, hj⟩) (r + e) := by
  intro e
  induction e with
  | zero =>
    intro gs r j fuel hj hfuel halive
    obtain ⟨fuel', rfl⟩ : ∃ fuel', fuel = fuel' + 1 := ⟨fuel - 1, by omega⟩
    have halive0 : ∀ g ∈ gs, (g r).isSome :=
      fun g hg => halive g hg 0 (Nat.le_refl 0)
    have hlen : (gs.filterMap (fun g => g r)).length = gs.length :=
      filterMap_length_of_isSome _ _ halive0
    have hzj : 0 * gs.length + j = j := by
      rw [Nat.zero_mul, Nat.zero_add]
    have hk : 0 * gs.length + j < (gs.filterMap (fun g => g r)).length := by
      rw [hzj, hlen]
      exact hj
    rw [disjiGoF, dif_pos hk]
    have hget2 : (gs.filterMap (fun g => g r)).get? (0 * gs.length + j) =
        (gs.get ⟨j, hj⟩) r := by
      rw [hzj]
      exact filterMap_get?_of_isSome _ gs j hj halive0
    rw [List.get?_eq_get hk] at hget2
    rw [hget2, Nat.add_zero]
  | succ e ih =>
    intro gs r j fuel hj hfuel halive
    obtain ⟨fuel', rfl⟩ : ∃ fuel', fuel = fuel' + 1 := ⟨fuel - 1, by omega⟩
    have hmul : (e + 1) * gs.length = e * gs.length + gs.length :=
      Nat.succ_mul e gs.length
    rw [hmul] at hfuel ⊢
    have halive0 : ∀ g ∈ gs, (g r).isSome :=
      fun g hg => halive g hg 0 (Nat.zero_le _)
    have hlen : (gs.filterMap (fun g => g r)).length = gs.length :=
      filterMap_length_of_isSome _ _ halive0
    have hk : ¬ e * gs.length + gs.length + j <
        (gs.filterMap (fun g => g r)).length := by
      rw [hlen]
      clear hlen hfuel
      omega
    rw [disjiGoF, dif_neg hk]
    have h0 : ¬ (gs.filterMap (fun g => g r)).length = 0 := by
      rw [hlen]
      clear hlen hk hfuel
      omega
    rw [if_neg h0]
    rw [List.filter_eq_self.mpr halive0]
    have harith : e * gs.length + gs.length + j -
        (gs.filterMap (fun g => g r)).length = e * gs.length + j := by
      rw [hlen]
      clear hlen hk h0 hfuel
      omega
    rw [harith]
    have halive' : ∀ g ∈ gs, ∀ e', e' ≤ e → (g (r + 1 + e')).isSome := by
      intro g hg e' he'
      have hthis := halive g hg (e' + 1) (Nat.succ_le_succ he')
      have harr : r + (e' + 1) = r + 1 + e' := by
        rw [Nat.add_comm e' 1, ← Nat.add_assoc]
      rwa [harr] at hthis
    have hfuel' : e * gs.length + j + 2 ≤ fuel' := by
      clear hk h0 harith hlen
      omega
    rw [ih gs (r + 1) j fuel' hj hfuel' halive']
    have harr2 : r + 1 + e = r + (e + 1) := by
      rw [Nat.add_comm e 1, ← Nat.add_assoc]
    rw [harr2]

/-- Fairness of the shared `disji`/`condi` loop: an element at depth `d` of
a live member stream is yielded among the first `m·(d+1)` states of the
combined stream. -/
theorem disjiGoF_fair :
    ∀ (d : Nat) (gs : List (Nat → Option State)) (r : Nat)
      (g : Nat → Option State) (x : State) (fuel : Nat),
      g ∈ gs → (∀ e, e ≤ d → (g (r + e)).isSome) → g (r + d) = some x →
      d + 2 ≤ fuel →
      ∃ k, k < gs.length * (d + 1) ∧ disjiGoF fuel gs r k = some x := by
  intro d
  induction d with
  | zero =>
    intro gs r g x fuel hg halive hx hfuel
    obtain ⟨fuel', rfl⟩ : ∃ fuel', fuel = fuel' + 1 := ⟨fuel - 1, by omega⟩
    have hmem : x ∈ gs.filterMap (fun g' => g' r) :=
      List.mem_filterMap.mpr ⟨g, hg, by simpa using hx⟩
    obtain ⟨⟨i, hi⟩, hget⟩ := List.mem_iff_get.mp hmem
    refine ⟨i, ?_, ?_⟩
    · have h1 : (gs.filterMap (fun g' => g' r)).length ≤ gs.length :=
        List.length_filterMap_le _ _
      exact Nat.lt_of_lt_of_le hi (h1.trans (le_of_eq (by simp)))
    · rw [disjiGoF, dif_pos hi, hget]
  | succ d ihd =>
    intro gs r g x fuel hg halive hx hfuel
    obtain ⟨fuel', rfl⟩ : ∃ fuel', fuel = fuel' + 1 := ⟨fuel - 1, by omega⟩
    have h0 : (g r).isSome := by simpa using halive 0 (Nat.zero_le _)
    have hgs : g ∈ gs.filter (fun g' => (g' r).isSome) :=
      List.mem_filter.mpr ⟨hg, h0⟩
    obtain ⟨k', hk', hres⟩ :=
      ihd (gs.filter (fun g' => (g' r).isSome)) (r + 1) g x fuel' hgs
        (by
          intro e he
          have hthis := halive (e + 1) (Nat.succ_le_succ he)
          have harr : r + (e + 1) = r + 1 + e := by
            rw [Nat.add_comm e 1, ← Nat.add_assoc]
          rwa [harr] at hthis)
        (by
          have harr : r + (d + 1) = r + 1 + d := by
            rw [Nat.add_comm d 1, ← Nat.add_assoc]
          rwa [harr] at hx)
        (by omega)
    obtain ⟨y, hy⟩ := Option.isSome_iff_exists.mp h0
    have hymem : y ∈ gs.filterMap (fun g' => g' r) :=
      List.mem_filterMap.mpr ⟨g, hg, hy⟩
    have houts_ne : (gs.filterMap (fun g' => g' r)).length ≠ 0 := by
      intro hc
      rw [List.length_eq_zero] at hc
      rw [hc] at hymem
      cases hymem
    refine ⟨(gs.filterMap (fun g' => g' r)).length + k', ?_, ?_⟩
    · have h1 : (gs.filterMap (fun g' => g' r)).length ≤ gs.length :=
        List.length_filterMap_le _ _
      have h2 : (gs.filter (fun g' => (g' r).isSome)).length ≤ gs.length :=
        List.length_filter_le _ _
      have h3 : (gs.filter (fun g' => (g' r).isSome)).length * (d + 1) ≤
          gs.length * (d + 1) := Nat.mul_le_mul_right _ h2
      calc (gs.filterMap (fun g' => g' r)).length + k'
          < (gs.filterMap (fun g' => g' r)).length +
            (gs.filter (fun g' => (g' r).isSome)).length * (d + 1) :=
            Nat.add_lt_add_left hk' _
        _ ≤ gs.length + gs.length * (d + 1) := Nat.add_le_add h1 h3
        _ = gs.length * (d + 1 + 1) := by
            rw [show gs.length * (d + 1 + 1) =
              gs.length * (d + 1) + gs.length from Nat.mul_succ _ _]
            exact Nat.add_comm _ _
    · rw [disjiGoF]
      rw [dif_neg (Nat.not_lt.mpr (Nat.le_add_right _ k'))]
      rw [if_neg houts_ne]
      rw [Nat.add_sub_cancel_left]
      exact hres

/-- C6.  The round-robin loop shared by `disji(g1, …, gm)` and
`condi(c1, …, cm)` serves the `k`-th pull from clause `k mod m` while no
clause stream is exhausted (the `(e·m + j)`-th yield is element `e` of
stream `j`), and is fair: if a clause stream has a satisfying substitution
at depth at most `d`, the combined stream yields that substitution within
its first `m·(d+1)` states, even when the other streams are infinite. -/
theorem C6_disji_condi_round_robin (gs : List (Nat → Option State)) :
    (∀ (d e j : Nat) (hj : j < gs.length),
      (∀ g ∈ gs, ∀ e', e' ≤ d → (g e').isSome) → e ≤ d →
      disjiNth gs (e * gs.length + j) = (gs.get ⟨j, hj⟩) e) ∧
    (∀ (g : Nat → Option State) (d : Nat) (x : State),
      g ∈ gs → (∀ e, e ≤ d → (g e).isSome) → g d = some x →
      ∃ k, k < gs.length * (d + 1) ∧ disjiNth gs k = some x) := by
  constructor
  · intro d e j hj halive he
    rw [disjiNth]
    have h := disjiGoF_round_robin e gs 0 j (e * gs.length + j + 2) hj
      (Nat.le_refl _)
      (by
        intro g hg e' he'
        have := halive g hg e' (he'.trans he)
        simpa using this)
    simpa using h
  · intro g d x hg halive hx
    obtain ⟨k, hk, hres⟩ := disjiGoF_fair d gs 0 g x (d + 2) hg
      (by intro e he; simpa using halive e he) (by simpa using hx)
      (Nat.le_refl _)
    exact ⟨k, hk, disjiGoF_fuel_k hres⟩

end Kanren
